import Mathlib

/-!
Verification of the bot response multiplexer specification.

The multiplexer implementation itself is not part of the source tree (only its
test suite is), so the component is modelled from the specification: an
incremental scanner that demultiplexes a growing character stream into named
topics delimited by pseudo-XML tags, with a turn-based lifecycle.

Text is modelled as `List Char`; topics as `List Char`; the multiplexer state
carries the subscription table (as the list of subscribed topic names), the
log of contents actually delivered to subscribers, the log of turn-completion
deliveries, the open-tag stack and the accumulation buffer.
-/

set_option maxRecDepth 100000

namespace BotMux

/-- The number of occurrences of a topic in a list of topics. -/
def countTopic (l : List (List Char)) (t : List Char) : Nat :=
  (l.filter fun x => decide (x = t)).length

/-- Modelled from the spec: tag names are made of letters, digits and hyphens
(spec §4.1, "Tag grammar recognized inside the stream"). -/
def isNameChar (c : Char) : Bool := c.isAlpha || c.isDigit || decide (c = '-')

/-- Characters that cannot begin a tag candidate (anything but a left angle bracket). -/
def notLT (c : Char) : Bool := ! decide (c = '<')

/-- Modelled from the spec: the reserved default topic, a stable exported
constant; content not enclosed by a recognized tag is addressed to it (spec §3, §6). -/
def DEFAULT_TOPIC : List Char := "Assistant".data

/-- The topic currently being addressed: the most recently opened tag still on
the stack, or the default topic when the stack is empty (spec §4.1 step 3). -/
def currentTopic (stack : List (List Char)) : List Char := stack.headD DEFAULT_TOPIC

/-- Modelled from the spec: lenient close (spec §4.1 steps 3 and 7) — a closing
tag closes out the open tags down to and including the named one, so a
mismatched close still pops back out rather than leaving topics stuck open. -/
def popThrough (name : List Char) : List (List Char) → List (List Char)
  | [] => []
  | t :: rest => if t = name then rest else popThrough name rest

/-- Effect of a committed structural tag on the open-tag stack (spec §4.1 step 3). -/
def applyTag (isClose : Bool) (name : List Char) (stack : List (List Char)) :
    List (List Char) :=
  if isClose then popThrough name stack else name :: stack

/-- Modelled from the spec: a complete tag is structural only if its name is in
the recognized vocabulary — a newly-opening tag must name a subscribed topic,
a closing tag must name a currently-open one; everything else passes through
as literal content (spec §4.1 "Tag grammar", §8 "Unknown/non-grammar tags"). -/
def structuralTag (subs stack : List (List Char)) (isClose : Bool) (name : List Char) :
    Bool :=
  if isClose then decide (name ∈ stack) else decide (name ∈ subs)

/-- The literal text of a tag candidate that is not treated as structural
(spec §4.1 step 5): the bracket, the optional slash and the identifier run. -/
def tagLit (isClose : Bool) (name : List Char) : List Char :=
  '<' :: (if isClose then '/' :: name else name)

/-- Emission of the resolved text standing before the next tag candidate,
attributed to the current topic; nothing is emitted for empty text. -/
def preEmits (stack : List (List Char)) (pre : List Char) :
    List (List Char × List Char) :=
  if pre = [] then [] else [(currentTopic stack, pre)]

/-- Whether the tag candidate whose text follows the left bracket is a closing
tag: the bracket is immediately followed by a slash (spec §4.1 "Tag grammar"). -/
def tagIsClose (after : List Char) : Bool := decide (after.head? = some '/')

/-- The candidate tag text with the optional leading slash removed. -/
def tagBody (after : List Char) : List Char :=
  if tagIsClose after then after.tail else after

/-- The identifier run of the tag candidate. -/
def tagName (after : List Char) : List Char := (tagBody after).takeWhile isNameChar

/-- What follows the identifier run of the tag candidate; its first character
decides whether the candidate is a complete tag, and the buffer is unresolved
while it is still empty (spec §4.1 step 4). -/
def tagBeyond (after : List Char) : List Char := (tagBody after).dropWhile isNameChar

/-- Modelled from the spec: the incremental scan (spec §4.1 steps 1-7).
Repeatedly find the next left angle bracket; text before it belongs to the
current topic.  If the buffer ends before the candidate tag can be decided,
defer: leave the unresolved tail for the next publish.  A complete tag whose
name is recognized is committed structurally; any other candidate is emitted
as literal content of the current topic, the scan resuming at the character
that broke the tag grammar.  The `fuel` argument only bounds the recursion;
every step consumes at least one character, so `buf.length + 1` is adequate.

Returns the emitted `(topic, content)` spans in stream order, the new open-tag
stack and the leftover (unresolved) buffer. -/
def scanF (subs : List (List Char)) :
    Nat → List (List Char) → List Char →
      List (List Char × List Char) × List (List Char) × List Char
  | 0, stack, buf => ([], stack, buf)
  | fuel + 1, stack, buf =>
    let pre := buf.takeWhile notLT
    let rest := buf.dropWhile notLT
    if rest = [] then
      (preEmits stack pre, stack, [])
    else
      let after := rest.tail
      if tagBeyond after = [] then
        (preEmits stack pre, stack, rest)
      else if (tagBeyond after).head? = some '>' ∧ tagName after ≠ [] ∧
          structuralTag subs stack (tagIsClose after) (tagName after) = true then
        let res := scanF subs fuel
          (applyTag (tagIsClose after) (tagName after) stack) (tagBeyond after).tail
        (preEmits stack pre ++ res.1, res.2)
      else
        let res := scanF subs fuel stack (tagBeyond after)
        (preEmits stack pre ++
          (currentTopic stack, tagLit (tagIsClose after) (tagName after)) :: res.1, res.2)

/-- The scan run to quiescence on a buffer (the fuel bound is adequate). -/
def scan (subs stack : List (List Char)) (buf : List Char) :
    List (List Char × List Char) × List (List Char) × List Char :=
  scanF subs (buf.length + 1) stack buf

/-- Modelled from the spec (§3 data model): the multiplexer state — the
subscription table (topics having a subscriber), the log of content deliveries
actually handed to subscribers, the log of turn-completion deliveries, the
open-tag stack and the accumulation buffer. -/
structure MuxState where
  subs : List (List Char)
  received : List (List Char × List Char)
  turnEvents : List (List Char)
  stack : List (List Char)
  buffer : List Char
deriving DecidableEq, Repr

/-- A fresh multiplexer: no subscribers, empty logs, empty stack and buffer. -/
def new : MuxState := ⟨[], [], [], [], []⟩

/-- Modelled from the spec: subscribing registers the topic; registering a
second subscriber for the same topic replaces the first, so the set of
subscribed topics is unchanged (spec §3 "Subscription table", §4.1). -/
def sub (st : MuxState) (topic : List Char) : MuxState :=
  if topic ∈ st.subs then st else { st with subs := st.subs ++ [topic] }

/-- Deliveries actually handed to subscribers: content addressed to a topic
with no subscriber is silently discarded (spec §4.1, §7). -/
def deliver (subs : List (List Char)) (ems : List (List Char × List Char)) :
    List (List Char × List Char) :=
  ems.filter fun e => decide (e.1 ∈ subs)

/-- Modelled from the spec: publish appends the chunk to the accumulation
buffer and scans, dispatching every resolved span in stream order
(spec §4.1 steps 1-7; §5: calls are processed in the order issued). -/
def publish (st : MuxState) (chunk : List Char) : MuxState :=
  let r := scan st.subs st.stack (st.buffer ++ chunk)
  { st with
    received := st.received ++ deliver st.subs r.1
    stack := r.2.1
    buffer := r.2.2 }

/-- Modelled from the spec: turn completion flushes any trailing unresolved
buffer as literal content of the current topic, delivers `onTurnComplete` to
every currently registered subscriber, and resets the open-tag stack and
buffer for the next turn (spec §4.1 "Turn completion", §3 invariants). -/
def notifyTurnComplete (st : MuxState) : MuxState :=
  { st with
    received := st.received ++ deliver st.subs (preEmits st.stack st.buffer)
    turnEvents := st.turnEvents ++ st.subs
    stack := []
    buffer := [] }

/-- The sequence of contents delivered to a topic's subscriber, in order. -/
def receivedBy (st : MuxState) (topic : List Char) : List (List Char) :=
  (st.received.filter fun e => decide (e.1 = topic)).map Prod.snd

/-- The concatenation of everything delivered to a topic's subscriber. -/
def joined (st : MuxState) (topic : List Char) : List Char :=
  (receivedBy st topic).flatten

/-- A multiplexer with the given topics subscribed. -/
def mkMux (topics : List (List Char)) : MuxState := topics.foldl sub new

/-- Publish a sequence of chunks in order. -/
def runPub (st : MuxState) (chunks : List (List Char)) : MuxState :=
  chunks.foldl publish st

/-! ### Timing model for the backpressure discipline

Modelled from the spec (§4.1 step 6 and §5): dispatch is sequential and awaits
each subscriber promise before proceeding; `notifyTurnComplete` awaits the
outstanding publish work, then delivers `onTurnComplete` to every subscriber
and awaits each of those promises.  External events are modelled by a schedule
assigning each delivered `onResponse` (and each `onTurnComplete`) the time at
which its promise settles. -/

/-- The time at which a sequentially awaited queue of promises has drained,
starting from time `t`: each promise settles no earlier than both its dispatch
time and its scheduled settle time, and the next dispatch awaits it. -/
def drainTime : List Nat → Nat → Nat
  | [], t => t
  | s :: rest, t => drainTime rest (max t s)

/-- The settle times of the onResponse promises of a run, under schedule `f`:
one entry per content delivery the scanner actually produced. -/
def settleTimes (st : MuxState) (chunks : List (List Char)) (f : Nat → Nat) :
    List Nat :=
  (List.range (runPub st chunks).received.length).map f

/-- Modelled from the spec: `notifyTurnComplete` first awaits the publish
chain, so `onTurnComplete` is delivered only once the onResponse queue has
drained (spec §4.1 "Public contract", §5). -/
def turnDeliverTime (st : MuxState) (chunks : List (List Char)) (f : Nat → Nat) :
    Nat :=
  drainTime (settleTimes st chunks f) 0

/-- Modelled from the spec: the promise returned by `notifyTurnComplete`
resolves only after every subscriber's `onTurnComplete` promise has settled as
well (schedule `g`, one entry per subscriber). -/
def turnResolveTime (st : MuxState) (chunks : List (List Char)) (f g : Nat → Nat) :
    Nat :=
  drainTime (((List.range (runPub st chunks).subs.length).map g))
    (turnDeliverTime st chunks f)

/-! ### Concrete scenario states, taken verbatim from the test suite. -/

/-- The routing scenario: subscribers on cashier and barista, one publish. -/
def coffeeMux : MuxState :=
  runPub (mkMux ["cashier".data, "barista".data])
    ["<cashier>one double tall latte please\nand a donut\n</cashier><barista> can I get that to go?</barista>".data]

/-- The sloppily-closed-tags scenario after the publish, before turn end:
default, row and cell subscribed. -/
def sloppyPub : MuxState :=
  runPub (mkMux [DEFAULT_TOPIC, "row".data, "cell".data])
    ["<row>S, V F X<cell>variety</cell><cell>limburger</row>F U N E X".data]

/-- The sloppily-closed-tags scenario after turn completion. -/
def sloppyMux : MuxState := notifyTurnComplete sloppyPub

/-- The unknown-tag scenario: only the default topic subscribed. -/
def oratorMux : MuxState :=
  notifyTurnComplete (runPub (mkMux [DEFAULT_TOPIC])
    ["<orator>I'm speechless</orator>".data])

/-- The tag-like-noise scenario: only the default topic subscribed. -/
def noiseMux : MuxState :=
  notifyTurnComplete (runPub (mkMux [DEFAULT_TOPIC])
    ["[] <--insert coin </wow> party hat emoji O:>".data])

/-- The nested-topics input, published in a single call. -/
def nestedInput : List Char :=
  "everything is a-ok\n<conspiracy>birds are not <deeper-conspiracy><--they are a government plot!!1!--></deeper-conspiracy>real</conspiracy>".data

/-- The nested-topics scenario: conspiracy and deeper-conspiracy subscribed,
no default subscriber. -/
def nestedMux : MuxState :=
  notifyTurnComplete
    (runPub (mkMux ["conspiracy".data, "deeper-conspiracy".data]) [nestedInput])

/-- The default-and-specific scenario: deep-state and the default subscribed. -/
def deepStateMux : MuxState :=
  notifyTurnComplete (runPub (mkMux ["deep-state".data, DEFAULT_TOPIC])
    ["everything is a-ok\n<deep-state>birds are not real</deep-state>\n<deep-state> they are a government plot</deep-state>".data])

/-- The slow-consumer scenario state before publishing. -/
def menuMux0 : MuxState := mkMux [DEFAULT_TOPIC, "food".data]

/-- The slow-consumer scenario: the tag is split across the two publishes. -/
def menuMux : MuxState :=
  notifyTurnComplete
    (runPub menuMux0 ["Tonight's menu: <".data, "food>hamburger\ndonuts</food>".data])

/-! ### General list helpers -/

theorem notLT_eq_true {c : Char} : notLT c = true ↔ ¬(c = '<') := by
  simp [notLT]

theorem notLT_lt : notLT '<' = false := by decide

theorem isNameChar_lt : isNameChar '<' = false := by decide

theorem len_dropWhile_le (p : Char → Bool) (l : List Char) :
    (l.dropWhile p).length ≤ l.length := by
  induction l with
  | nil => simp
  | cons a t ih =>
    rw [List.dropWhile_cons]
    split
    · exact Nat.le_trans ih (Nat.le_succ _)
    · exact Nat.le_refl _

theorem mem_takeWhile_pred (p : Char → Bool) (l : List Char) :
    ∀ c ∈ l.takeWhile p, p c = true := by
  induction l with
  | nil => simp
  | cons a t ih =>
    rw [List.takeWhile_cons]
    split
    · intro c hc
      rcases List.mem_cons.mp hc with rfl | hc'
      · assumption
      · exact ih c hc'
    · simp

theorem takeWhile_append_stop {p : Char → Bool} {l : List Char} (r : List Char)
    (h : ∃ x ∈ l, p x = false) :
    (l ++ r).takeWhile p = l.takeWhile p ∧
      (l ++ r).dropWhile p = l.dropWhile p ++ r := by
  induction l with
  | nil => simp at h
  | cons a t ih =>
    by_cases hpa : p a = true
    · have h' : ∃ x ∈ t, p x = false := by
        obtain ⟨x, hx, hpx⟩ := h
        rcases List.mem_cons.mp hx with rfl | hx'
        · rw [hpa] at hpx; cases hpx
        · exact ⟨x, hx', hpx⟩
      obtain ⟨h1, h2⟩ := ih h'
      constructor
      · simp [List.takeWhile_cons, hpa, h1]
      · simp [List.dropWhile_cons, hpa, h2]
    · constructor
      · simp [List.takeWhile_cons, hpa]
      · simp [List.dropWhile_cons, hpa]

theorem dropWhile_stop_ne_nil {p : Char → Bool} {l : List Char}
    (h : ∃ x ∈ l, p x = false) : l.dropWhile p ≠ [] := by
  intro hnil
  obtain ⟨x, hx, hpx⟩ := h
  have := (List.dropWhile_eq_nil_iff).mp hnil x hx
  rw [hpx] at this
  cases this

theorem dropWhile_head_not {p : Char → Bool} :
    ∀ {l : List Char} {a : Char} {t : List Char}, l.dropWhile p = a :: t → p a = false := by
  intro l
  induction l with
  | nil => intro a t h; cases h
  | cons b u ih =>
    intro a t h
    rw [List.dropWhile_cons] at h
    by_cases hpb : p b = true
    · rw [if_pos hpb] at h; exact ih h
    · rw [if_neg hpb] at h
      cases h
      simpa using hpb

theorem head?_append_left {l : List Char} (r : List Char) (h : l ≠ []) :
    (l ++ r).head? = l.head? := by
  cases l with
  | nil => exact absurd rfl h
  | cons a t => rfl

theorem tail_append_left {l : List Char} (r : List Char) (h : l ≠ []) :
    (l ++ r).tail = l.tail ++ r := by
  cases l with
  | nil => exact absurd rfl h
  | cons a t => rfl

theorem getLast?_append_right {α : Type} {l r : List α} (h : r ≠ []) :
    (l ++ r).getLast? = r.getLast? := by
  rw [List.getLast?_append]
  cases hr : r.getLast? with
  | none => exact absurd (List.getLast?_eq_none_iff.mp hr) h
  | some a => rfl

theorem getLast?_cons_ne {α : Type} {a : α} {t : List α} (h : t ≠ []) :
    (a :: t).getLast? = t.getLast? := by
  cases t with
  | nil => exact absurd rfl h
  | cons b u => exact List.getLast?_cons_cons

/-! ### Scan unfolding lemmas -/

theorem scanF_flush (subs : List (List Char)) (f : Nat) (stack : List (List Char))
    (buf : List Char) (h : buf.dropWhile notLT = []) :
    scanF subs (f + 1) stack buf = (preEmits stack (buf.takeWhile notLT), stack, []) := by
  simp [scanF, h]

theorem len_tagBody_le (after : List Char) : (tagBody after).length ≤ after.length := by
  rw [tagBody]
  split
  · cases after <;> simp
  · exact Nat.le_refl _

theorem len_tagBeyond_le (after : List Char) :
    (tagBeyond after).length ≤ after.length := by
  exact Nat.le_trans (len_dropWhile_le _ _) (len_tagBody_le after)

theorem scanF_step (subs : List (List Char)) (f : Nat) (stack : List (List Char))
    (pre after : List Char) (hp : ∀ c ∈ pre, notLT c = true) :
    scanF subs (f + 1) stack (pre ++ '<' :: after) =
      if tagBeyond after = [] then
        (preEmits stack pre, stack, '<' :: after)
      else if (tagBeyond after).head? = some '>' ∧ tagName after ≠ [] ∧
          structuralTag subs stack (tagIsClose after) (tagName after) = true then
        (preEmits stack pre ++
          (scanF subs f (applyTag (tagIsClose after) (tagName after) stack)
            (tagBeyond after).tail).1,
         (scanF subs f (applyTag (tagIsClose after) (tagName after) stack)
            (tagBeyond after).tail).2)
      else
        (preEmits stack pre ++
          (currentTopic stack, tagLit (tagIsClose after) (tagName after)) ::
            (scanF subs f stack (tagBeyond after)).1,
         (scanF subs f stack (tagBeyond after)).2) := by
  have ht : (pre ++ '<' :: after).takeWhile notLT = pre := by
    rw [List.takeWhile_append_of_pos hp]
    simp [List.takeWhile_cons, notLT_lt]
  have hd : (pre ++ '<' :: after).dropWhile notLT = '<' :: after := by
    rw [List.dropWhile_append_of_pos hp]
    simp [List.dropWhile_cons, notLT_lt]
  simp only [scanF, ht, hd]
  rw [if_neg (by simp : ¬('<' :: after = []))]
  simp only [List.tail_cons]

theorem scanF_congr (subs : List (List Char)) :
    ∀ (n f g : Nat) (stack : List (List Char)) (buf : List Char),
      buf.length ≤ n → buf.length < f → buf.length < g →
      scanF subs f stack buf = scanF subs g stack buf := by
  intro n
  induction n with
  | zero =>
    intro f g stack buf hn hf hg
    have hb : buf = [] := List.length_eq_zero.mp (Nat.le_zero.mp hn)
    subst hb
    cases f with
    | zero => exact absurd hf (by simp)
    | succ f' =>
      cases g with
      | zero => exact absurd hg (by simp)
      | succ g' =>
        rw [scanF_flush subs f' stack [] rfl, scanF_flush subs g' stack [] rfl]
  | succ n ih =>
    intro f g stack buf hn hf hg
    cases f with
    | zero => exact absurd hf (by simp)
    | succ f' =>
      cases g with
      | zero => exact absurd hg (by simp)
      | succ g' =>
        cases hd : buf.dropWhile notLT with
        | nil =>
          rw [scanF_flush subs f' stack buf hd, scanF_flush subs g' stack buf hd]
        | cons a t =>
          have ha : a = '<' := by
            have := dropWhile_head_not hd
            rw [notLT] at this
            simpa using this
          subst ha
          have hbuf : buf = buf.takeWhile notLT ++ '<' :: t := by
            conv_lhs => rw [← List.takeWhile_append_dropWhile notLT buf]
            rw [hd]
          have hp : ∀ c ∈ buf.takeWhile notLT, notLT c = true :=
            mem_takeWhile_pred notLT buf
          have hlen : (buf.takeWhile notLT).length + 1 + t.length = buf.length := by
            conv_rhs => rw [hbuf]
            simp [List.length_append]
            omega
          rw [hbuf, scanF_step subs f' stack _ t hp, scanF_step subs g' stack _ t hp]
          by_cases h1 : tagBeyond t = []
          · rw [if_pos h1, if_pos h1]
          · rw [if_neg h1, if_neg h1]
            have hb1 : (tagBeyond t).length ≤ t.length := len_tagBeyond_le t
            by_cases h2 : (tagBeyond t).head? = some '>' ∧ tagName t ≠ [] ∧
                structuralTag subs stack (tagIsClose t) (tagName t) = true
            · rw [if_pos h2, if_pos h2]
              have := ih f' g' (applyTag (tagIsClose t) (tagName t) stack)
                (tagBeyond t).tail (by simp [List.length_tail]; omega)
                (by simp [List.length_tail]; omega) (by simp [List.length_tail]; omega)
              rw [this]
            · rw [if_neg h2, if_neg h2]
              have := ih f' g' stack (tagBeyond t) (by omega) (by omega) (by omega)
              rw [this]

theorem scan_flush (subs stack : List (List Char)) (buf : List Char)
    (h : buf.dropWhile notLT = []) :
    scan subs stack buf = (preEmits stack (buf.takeWhile notLT), stack, []) := by
  rw [scan, scanF_flush subs buf.length stack buf h]

theorem scan_step (subs stack : List (List Char)) (pre after : List Char)
    (hp : ∀ c ∈ pre, notLT c = true) :
    scan subs stack (pre ++ '<' :: after) =
      if tagBeyond after = [] then
        (preEmits stack pre, stack, '<' :: after)
      else if (tagBeyond after).head? = some '>' ∧ tagName after ≠ [] ∧
          structuralTag subs stack (tagIsClose after) (tagName after) = true then
        (preEmits stack pre ++
          (scan subs (applyTag (tagIsClose after) (tagName after) stack)
            (tagBeyond after).tail).1,
         (scan subs (applyTag (tagIsClose after) (tagName after) stack)
            (tagBeyond after).tail).2)
      else
        (preEmits stack pre ++
          (currentTopic stack, tagLit (tagIsClose after) (tagName after)) ::
            (scan subs stack (tagBeyond after)).1,
         (scan subs stack (tagBeyond after)).2) := by
  rw [scan]
  rw [scanF_step subs (pre ++ '<' :: after).length stack pre after hp]
  have hafter : after.length < (pre ++ '<' :: after).length := by
    simp [List.length_append]
    omega
  by_cases h1 : tagBeyond after = []
  · rw [if_pos h1, if_pos h1]
  · rw [if_neg h1, if_neg h1]
    have hb1 : (tagBeyond after).length ≤ after.length := len_tagBeyond_le after
    by_cases h2 : (tagBeyond after).head? = some '>' ∧ tagName after ≠ [] ∧
        structuralTag subs stack (tagIsClose after) (tagName after) = true
    · rw [if_pos h2, if_pos h2]
      rw [scan, scanF_congr subs (tagBeyond after).tail.length _ _ _ _
        (Nat.le_refl _) (by simp [List.length_tail]; omega) (Nat.lt_succ_self _)]
    · rw [if_neg h2, if_neg h2]
      rw [scan, scanF_congr subs (tagBeyond after).length _ _ _ _
        (Nat.le_refl _) (by omega) (Nat.lt_succ_self _)]

/-! ### The scan is invariant under re-chunking at an unresolved bracket -/

theorem tag_fns_append {after : List Char} (q : List Char)
    (hne : after ≠ []) (hlast : after.getLast? = some '<') :
    tagIsClose (after ++ q) = tagIsClose after ∧
    tagName (after ++ q) = tagName after ∧
    tagBeyond (after ++ q) = tagBeyond after ++ q ∧
    tagBeyond after ≠ [] ∧
    (tagBeyond after).getLast? = some '<' := by
  have hic : tagIsClose (after ++ q) = tagIsClose after := by
    rw [tagIsClose, tagIsClose, head?_append_left q hne]
  have hbody : tagBody (after ++ q) = tagBody after ++ q := by
    rw [tagBody, tagBody, hic]
    split
    · exact tail_append_left q hne
    · rfl
  have hbody_facts : tagBody after ≠ [] ∧ (tagBody after).getLast? = some '<' := by
    rw [tagBody]
    split
    · -- closing candidate: after begins with a slash
      rename_i hcl
      have hhead : after.head? = some '/' := of_decide_eq_true hcl
      cases after with
      | nil => exact absurd rfl hne
      | cons a t =>
        have ha : a = '/' := by simpa using hhead
        subst ha
        cases t with
        | nil => simp at hlast
        | cons b u =>
          refine ⟨by simp, ?_⟩
          rw [List.getLast?_cons_cons] at hlast
          simpa using hlast
    · exact ⟨hne, hlast⟩
  have hmem : '<' ∈ tagBody after := List.mem_of_getLast?_eq_some hbody_facts.2
  have hstop : ∃ x ∈ tagBody after, isNameChar x = false := ⟨'<', hmem, isNameChar_lt⟩
  obtain ⟨ht, hd⟩ := takeWhile_append_stop (p := isNameChar) q hstop
  have hbne : tagBeyond after ≠ [] := dropWhile_stop_ne_nil hstop
  refine ⟨hic, ?_, ?_, hbne, ?_⟩
  · rw [tagName, tagName, hbody, ht]
  · rw [tagBeyond, tagBeyond, hbody, hd]
  · have hsplitb : tagName after ++ tagBeyond after = tagBody after :=
      List.takeWhile_append_dropWhile isNameChar (tagBody after)
    have := getLast?_append_right (l := tagName after) hbne
    rw [hsplitb] at this
    rw [← this, hbody_facts.2]

theorem scan_append_split (subs : List (List Char)) :
    ∀ (B q : List Char) (stack : List (List Char)),
      B.getLast? = some '<' →
      scan subs stack (B ++ q) =
        ((scan subs stack B).1 ++
          (scan subs (scan subs stack B).2.1 ((scan subs stack B).2.2 ++ q)).1,
         (scan subs (scan subs stack B).2.1 ((scan subs stack B).2.2 ++ q)).2) := by
  suffices H : ∀ (n : Nat) (B q : List Char) (stack : List (List Char)),
      B.length ≤ n → B.getLast? = some '<' →
      scan subs stack (B ++ q) =
        ((scan subs stack B).1 ++
          (scan subs (scan subs stack B).2.1 ((scan subs stack B).2.2 ++ q)).1,
         (scan subs (scan subs stack B).2.1 ((scan subs stack B).2.2 ++ q)).2) by
    exact fun B q stack h => H B.length B q stack (Nat.le_refl _) h
  intro n
  induction n with
  | zero =>
    intro B q stack hn hB
    have hb : B = [] := List.length_eq_zero.mp (Nat.le_zero.mp hn)
    subst hb
    simp at hB
  | succ n ih =>
    intro B q stack hn hB
    have hmem : '<' ∈ B := List.mem_of_getLast?_eq_some hB
    have hstop : ∃ x ∈ B, notLT x = false := ⟨'<', hmem, notLT_lt⟩
    cases hd : B.dropWhile notLT with
    | nil => exact absurd hd (dropWhile_stop_ne_nil hstop)
    | cons a t =>
      have ha : a = '<' := by
        have := dropWhile_head_not hd
        rw [notLT] at this
        simpa using this
      subst ha
      have hp : ∀ c ∈ B.takeWhile notLT, notLT c = true := mem_takeWhile_pred notLT B
      have hBeq : B = B.takeWhile notLT ++ '<' :: t := by
        conv_lhs => rw [← List.takeWhile_append_dropWhile notLT B, hd]
      have hlenB : (B.takeWhile notLT).length + 1 + t.length = B.length := by
        conv_rhs => rw [hBeq]
        simp [List.length_append]
        omega
      by_cases htnil : t = []
      · -- the final bracket is the one the scan stops at
        subst htnil
        have hBq : B ++ q = B.takeWhile notLT ++ '<' :: q := by
          conv_lhs => rw [hBeq]
          simp
        rw [hBq, scan_step subs stack _ q hp]
        conv_rhs => rw [hBeq, scan_step subs stack _ [] hp]
        have h0 : tagBeyond ([] : List Char) = [] := rfl
        rw [if_pos h0]
        have h2 : ('<' : Char) :: [] ++ q = [] ++ '<' :: q := by simp
        conv_rhs => rw [h2, scan_step subs stack [] q (by simp)]
        by_cases hq1 : tagBeyond q = []
        · rw [if_pos hq1, if_pos hq1]
          simp [preEmits]
        · rw [if_neg hq1, if_neg hq1]
          by_cases hq2 : (tagBeyond q).head? = some '>' ∧ tagName q ≠ [] ∧
              structuralTag subs stack (tagIsClose q) (tagName q) = true
          · rw [if_pos hq2, if_pos hq2]
            simp [preEmits]
          · rw [if_neg hq2, if_neg hq2]
            simp [preEmits]
      · -- the stopping bracket is before the end: the tag decision is stable
        have hlast_t : t.getLast? = some '<' := by
          have h1 : B.getLast? = ('<' :: t).getLast? := by
            conv_lhs => rw [hBeq]
            exact getLast?_append_right (by simp)
          rw [getLast?_cons_ne htnil] at h1
          rw [← h1, hB]
        obtain ⟨hic, hnm, hbey, hbne, hblast⟩ := tag_fns_append q htnil hlast_t
        have hBq : B ++ q = B.takeWhile notLT ++ '<' :: (t ++ q) := by
          conv_lhs => rw [hBeq]
          simp
        rw [hBq, scan_step subs stack _ (t ++ q) hp]
        conv_rhs => rw [hBeq, scan_step subs stack _ t hp]
        rw [hbey, hic, hnm, head?_append_left q hbne, tail_append_left q hbne]
        rw [if_neg (by simp [hbne] : ¬(tagBeyond t ++ q = [])), if_neg hbne]
        by_cases h2 : (tagBeyond t).head? = some '>' ∧ tagName t ≠ [] ∧
            structuralTag subs stack (tagIsClose t) (tagName t) = true
        · rw [if_pos h2, if_pos h2]
          obtain ⟨hhd, -, -⟩ := h2
          have hbt : tagBeyond t = '>' :: (tagBeyond t).tail := by
            cases hbb : tagBeyond t with
            | nil => exact absurd hbb hbne
            | cons x y =>
              rw [hbb] at hhd
              simp at hhd
              rw [hhd]
              simp
          have hbt_ne : (tagBeyond t).tail ≠ [] := by
            intro hnil
            rw [hbt, hnil] at hblast
            simp at hblast
          have hbt_last : (tagBeyond t).tail.getLast? = some '<' := by
            rw [hbt, getLast?_cons_ne hbt_ne] at hblast
            exact hblast
          have hlen : (tagBeyond t).tail.length ≤ n := by
            have h3 : (tagBeyond t).length ≤ t.length := len_tagBeyond_le t
            have h4 : (tagBeyond t).tail.length = (tagBeyond t).length - 1 :=
              List.length_tail _
            omega
          rw [ih _ q _ hlen hbt_last]
          simp [List.append_assoc]
        · rw [if_neg h2, if_neg h2]
          have hlen : (tagBeyond t).length ≤ n := by
            have h3 : (tagBeyond t).length ≤ t.length := len_tagBeyond_le t
            omega
          rw [ih _ q _ hlen hblast]
          simp [List.append_assoc]

/-- Publishing a chunk that ends in an unresolved left bracket and then the
next chunk is the same as publishing their concatenation in one call: the
deferred tail is re-examined when more input arrives (spec §4.1 step 4). -/
theorem publish_publish (st : MuxState) (p q : List Char)
    (hp : p.getLast? = some '<') :
    publish (publish st p) q = publish st (p ++ q) := by
  have hpne : p ≠ [] := by
    intro h
    rw [h] at hp
    simp at hp
  have hB : (st.buffer ++ p).getLast? = some '<' := by
    rw [getLast?_append_right hpne]
    exact hp
  have hsplit := scan_append_split st.subs (st.buffer ++ p) q st.stack hB
  simp only [publish]
  rw [← List.append_assoc, hsplit]
  simp [deliver, List.filter_append, List.append_assoc]

/-! ### A recognized opening tag shadows the current topic -/

theorem scan_open_span (subs stack : List (List Char)) (name c : List Char)
    (hname : ∀ ch ∈ name, isNameChar ch = true) (hne : name ≠ [])
    (hsub : structuralTag subs stack false name = true)
    (hc : ∀ ch ∈ c, notLT ch = true) (hcne : c ≠ []) :
    scan subs stack ('<' :: (name ++ '>' :: (c ++ '<' :: '/' :: (name ++ ['>'])))) =
      ([(name, c)], stack, []) := by
  have hslash : isNameChar '/' = false := by decide
  have hgt : isNameChar '>' = false := by decide
  -- decompose the head tag
  have h_ic0 : tagIsClose (name ++ '>' :: (c ++ '<' :: '/' :: (name ++ ['>']))) = false := by
    cases name with
    | nil => exact absurd rfl hne
    | cons nh nt =>
      have hnh : isNameChar nh = true := hname nh (by simp)
      have hnh' : ¬(nh = '/') := by
        intro h
        rw [h] at hnh
        rw [hslash] at hnh
        cases hnh
      simp [tagIsClose, List.cons_append]
      exact hnh'
  have h_body0 : tagBody (name ++ '>' :: (c ++ '<' :: '/' :: (name ++ ['>']))) =
      name ++ '>' :: (c ++ '<' :: '/' :: (name ++ ['>'])) := by
    rw [tagBody, h_ic0]
    simp
  have h_name0 : tagName (name ++ '>' :: (c ++ '<' :: '/' :: (name ++ ['>']))) = name := by
    rw [tagName, h_body0, List.takeWhile_append_of_pos hname]
    simp [List.takeWhile_cons, hgt]
  have h_bey0 : tagBeyond (name ++ '>' :: (c ++ '<' :: '/' :: (name ++ ['>']))) =
      '>' :: (c ++ '<' :: '/' :: (name ++ ['>'])) := by
    rw [tagBeyond, h_body0, List.dropWhile_append_of_pos hname]
    simp [List.dropWhile_cons, hgt]
  -- decompose the closing tag
  have h_ic1 : tagIsClose ('/' :: (name ++ ['>'])) = true := by
    simp [tagIsClose]
  have h_body1 : tagBody ('/' :: (name ++ ['>'])) = name ++ ['>'] := by
    rw [tagBody, h_ic1]
    simp
  have h_name1 : tagName ('/' :: (name ++ ['>'])) = name := by
    rw [tagName, h_body1, List.takeWhile_append_of_pos hname]
    simp [List.takeWhile_cons, hgt]
  have h_bey1 : tagBeyond ('/' :: (name ++ ['>'])) = ['>'] := by
    rw [tagBeyond, h_body1, List.dropWhile_append_of_pos hname]
    simp [List.dropWhile_cons, hgt]
  -- the whole buffer is [] ++ '<' :: after
  have hshape : ('<' :: (name ++ '>' :: (c ++ '<' :: '/' :: (name ++ ['>'])))) =
      [] ++ '<' :: (name ++ '>' :: (c ++ '<' :: '/' :: (name ++ ['>']))) := by simp
  rw [hshape, scan_step subs stack [] _ (by simp)]
  rw [h_bey0, h_name0, h_ic0]
  rw [if_neg (by simp), if_pos ⟨by simp, hne, hsub⟩]
  simp only [List.tail_cons]
  have hstep2 : c ++ '<' :: '/' :: (name ++ ['>']) = c ++ '<' :: ('/' :: (name ++ ['>'])) := rfl
  rw [hstep2, scan_step subs _ c _ hc]
  rw [h_bey1, h_name1, h_ic1]
  have hmemself : structuralTag subs (applyTag false name stack) true name = true := by
    simp [structuralTag, applyTag]
  rw [if_neg (by simp), if_pos ⟨by simp, hne, hmemself⟩]
  simp only [List.tail_cons]
  rw [scan_flush subs _ [] rfl]
  simp [preEmits, hcne, currentTopic, applyTag, popThrough]

/-! ### Content is only delivered to subscribed topics -/

theorem received_mem_publish (st : MuxState) (chunk : List Char)
    (e : List Char × List Char) (he : e ∈ (publish st chunk).received) :
    e ∈ st.received ∨ e.1 ∈ st.subs := by
  simp only [publish] at he
  rcases List.mem_append.mp he with h | h
  · exact Or.inl h
  · right
    rw [deliver] at h
    have := (List.mem_filter.mp h).2
    exact of_decide_eq_true this

/-! ### Drain-time facts for the backpressure model -/

theorem le_drainTime (l : List Nat) : ∀ t, t ≤ drainTime l t := by
  induction l with
  | nil =>
    intro t
    exact Nat.le_refl _
  | cons s rest ih =>
    intro t
    exact Nat.le_trans (Nat.le_max_left t s) (ih (max t s))

theorem mem_le_drainTime (l : List Nat) : ∀ t, ∀ x ∈ l, x ≤ drainTime l t := by
  induction l with
  | nil => simp
  | cons s rest ih =>
    intro t x hx
    rcases List.mem_cons.mp hx with rfl | hx'
    · exact Nat.le_trans (Nat.le_max_right t x) (le_drainTime rest _)
    · exact ih _ x hx'

theorem countTopic_eq_one :
    ∀ {l : List (List Char)} {t : List Char}, l.Nodup → t ∈ l → countTopic l t = 1 := by
  intro l
  induction l with
  | nil =>
    intro t h ht
    simp at ht
  | cons a rest ih =>
    intro t h ht
    have hnd := List.nodup_cons.mp h
    by_cases hat : a = t
    · subst hat
      have hfil : rest.filter (fun x => decide (x = a)) = [] := by
        refine List.filter_eq_nil_iff.mpr ?_
        intro x hx
        simp only [decide_eq_true_eq]
        intro hxa
        exact hnd.1 (hxa ▸ hx)
      rw [countTopic, List.filter_cons, if_pos (by simp), hfil]
      rfl
    · have ht' : t ∈ rest := by
        rcases List.mem_cons.mp ht with h1 | h1
        · exact absurd h1.symm hat
        · exact h1
      rw [countTopic, List.filter_cons, if_neg (by simp [hat])]
      exact ih hnd.2 ht'

/-! ### Claim theorems -/

/-- C1: with subscribers on cashier and barista, a single publish of the
tagged coffee order delivers exactly the latte text to the cashier subscriber
and exactly the to-go question to the barista subscriber, in stream order,
with no content delivered to any other topic (the delivery log is exactly
these two entries). -/
theorem routes_messages_to_subscribers :
    coffeeMux.received =
      [("cashier".data, "one double tall latte please\nand a donut\n".data),
       ("barista".data, " can I get that to go?".data)] := by
  decide

/-- C2: with subscribers on the default topic, row and cell, publishing the
sloppily closed markup followed by turn completion delivers row = [the first
span], cell = [variety, limburger] and default = [the trailing span]: the
mismatched closing row tag, met while cell is the most recently opened tag,
closes out the open tags (the stack is empty right after the publish) so that
subsequent content reverts to the default topic; the run is a total function,
so no error reaches the caller. -/
theorem sloppy_close_pops_to_default :
    receivedBy sloppyMux "row".data = ["S, V F X".data] ∧
    receivedBy sloppyMux "cell".data = ["variety".data, "limburger".data] ∧
    receivedBy sloppyMux DEFAULT_TOPIC = ["F U N E X".data] ∧
    sloppyPub.stack = [] := by
  decide

/-- C3: with only a default subscriber, publishing the orator-tagged sentence
followed by turn completion hands the default subscriber content whose
concatenation is exactly the published input string, brackets and tag text
included, and every delivery of the run goes to the default topic: a tag
whose name is neither a subscribed topic nor a currently open one is not
treated as structural. -/
theorem unknown_tags_pass_through :
    joined oratorMux DEFAULT_TOPIC = "<orator>I'm speechless</orator>".data ∧
    oratorMux.received.map Prod.fst =
      [DEFAULT_TOPIC, DEFAULT_TOPIC, DEFAULT_TOPIC, DEFAULT_TOPIC] := by
  decide

/-- C4: whenever an opening tag with a valid identifier name is recognized as
structural, it pushes the named topic over the previous one: the span
lexically inside the tag pair is emitted for the named topic only, the
enclosing stack is restored by the close, and no span inside it is attributed
to the previously current topic; moreover every content delivery of a publish
goes to a subscribed topic, so content addressed to a topic with no
subscriber (such as the default topic with no default subscriber) is silently
discarded rather than rerouted. -/
theorem structural_open_shadows_and_discards :
    (∀ (subs stack : List (List Char)) (name c : List Char),
        (∀ ch ∈ name, isNameChar ch = true) → name ≠ [] →
        structuralTag subs stack false name = true →
        (∀ ch ∈ c, notLT ch = true) → c ≠ [] →
        scan subs stack
            ('<' :: (name ++ '>' :: (c ++ '<' :: '/' :: (name ++ ['>'])))) =
          ([(name, c)], stack, [])) ∧
    (∀ (st : MuxState) (chunk : List Char) (e : List Char × List Char),
        e ∈ (publish st chunk).received → e ∈ st.received ∨ e.1 ∈ st.subs) :=
  ⟨scan_open_span, received_mem_publish⟩

/-- Witness for C4 at a concrete input: the recognized food tag routes the
enclosed span to food with the empty stack restored, exactly one delivery. -/
theorem structural_open_shadows_and_discards_witness :
    scan ["food".data] []
        ('<' :: ("food".data ++ '>' :: ("yum".data ++ '<' :: '/' :: ("food".data ++ ['>'])))) =
      ([("food".data, "yum".data)], [], []) :=
  structural_open_shadows_and_discards.1 ["food".data] [] "food".data "yum".data
    (by decide) (by decide) (by decide) (by decide) (by decide)

/-- C5: routing is invariant under re-chunking at an unresolved tag boundary:
for every state and every split of a stream into a prefix ending in a left
bracket (which, ending the buffer, is never yet resolvable as a complete tag)
and the remaining suffix, publishing the two pieces in consecutive calls
yields exactly the same multiplexer state — hence the same delivered content
for every topic — as publishing the concatenation in one call; in particular
the menu scenario with the tag split across two publishes delivers the menu
preamble to the default topic and the food list to the food topic, the split
tag being recognized structurally. -/
theorem rechunking_invariant :
    (∀ (st : MuxState) (p q : List Char), p.getLast? = some '<' →
        publish (publish st p) q = publish st (p ++ q)) ∧
    receivedBy menuMux DEFAULT_TOPIC = ["Tonight's menu: ".data] ∧
    receivedBy menuMux "food".data = ["hamburger\ndonuts".data] :=
  ⟨publish_publish, by decide, by decide⟩

/-- Witness for C5 at the concrete menu input: the two-publish run equals the
single-publish run of the concatenation. -/
theorem rechunking_invariant_witness :
    publish (publish menuMux0 "Tonight's menu: <".data)
        "food>hamburger\ndonuts</food>".data =
      publish menuMux0
        ("Tonight's menu: <".data ++ "food>hamburger\ndonuts</food>".data) :=
  rechunking_invariant.1 menuMux0 "Tonight's menu: <".data
    "food>hamburger\ndonuts</food>".data (by decide)

/-- C6: backpressure gates turn completion.  In the timing model of the await
discipline, every onResponse promise of the run settles no later than the
moment onTurnComplete is delivered, and the promise returned by
notifyTurnComplete resolves no earlier than that moment nor earlier than any
onTurnComplete settlement: a subscriber promise pending on an external event
holds back turn completion until it settles, and no onTurnComplete delivery
is observed before a pending onResponse settles. -/
theorem backpressure_gates_turn_completion (st : MuxState)
    (chunks : List (List Char)) (f g : Nat → Nat) :
    (∀ s ∈ settleTimes st chunks f, s ≤ turnDeliverTime st chunks f) ∧
    turnDeliverTime st chunks f ≤ turnResolveTime st chunks f g ∧
    (∀ j ∈ List.range (runPub st chunks).subs.length,
        g j ≤ turnResolveTime st chunks f g) := by
  refine ⟨?_, ?_, ?_⟩
  · intro s hs
    exact mem_le_drainTime _ 0 s hs
  · unfold turnResolveTime
    exact le_drainTime _ _
  · intro j hj
    unfold turnResolveTime
    exact mem_le_drainTime _ _ (g j) (List.mem_map.mpr ⟨j, hj, rfl⟩)

/-- Witness for C6 at the concrete slow-food scenario: a food delivery whose
promise settles only at external time 7 forces the onTurnComplete delivery
moment to at least 7. -/
theorem backpressure_gates_turn_completion_witness :
    7 ≤ turnDeliverTime menuMux0
        ["Tonight's menu: <".data, "food>hamburger\ndonuts</food>".data]
        (fun _ => 7) :=
  (backpressure_gates_turn_completion menuMux0
      ["Tonight's menu: <".data, "food>hamburger\ndonuts</food>".data]
      (fun _ => 7) (fun _ => 0)).1 7 (by decide)

/-- C7: for every multiplexer state (with the subscription table free of
duplicates, as every reachable state is), turn completion delivers
onTurnComplete exactly once to every currently registered subscriber —
content or no content — and afterwards the open-tag stack and the
accumulation buffer are reset, so the next turn starts at the default topic
even if the previous turn left tags unclosed. -/
theorem turn_completion_resets (st : MuxState) (h : st.subs.Nodup) :
    (notifyTurnComplete st).turnEvents = st.turnEvents ++ st.subs ∧
    (∀ t ∈ st.subs,
        countTopic ((notifyTurnComplete st).turnEvents.drop st.turnEvents.length) t = 1) ∧
    (notifyTurnComplete st).stack = [] ∧
    (notifyTurnComplete st).buffer = [] ∧
    currentTopic (notifyTurnComplete st).stack = DEFAULT_TOPIC := by
  refine ⟨rfl, ?_, rfl, rfl, rfl⟩
  intro t ht
  have hdrop : ((notifyTurnComplete st).turnEvents.drop st.turnEvents.length) = st.subs := by
    show ((st.turnEvents ++ st.subs).drop st.turnEvents.length) = st.subs
    exact List.drop_left _ _
  rw [hdrop]
  exact countTopic_eq_one h ht

/-- Witness for C7 at a concrete state whose previous turn left the food tag
unclosed: the stack resets and food receives exactly one onTurnComplete. -/
theorem turn_completion_resets_witness :
    (notifyTurnComplete
        (runPub (mkMux [DEFAULT_TOPIC, "food".data]) ["<food>unclosed".data])).stack = [] ∧
    countTopic ((notifyTurnComplete
        (runPub (mkMux [DEFAULT_TOPIC, "food".data]) ["<food>unclosed".data])).turnEvents.drop
          (runPub (mkMux [DEFAULT_TOPIC, "food".data]) ["<food>unclosed".data]).turnEvents.length)
        "food".data = 1 :=
  have h := turn_completion_resets
    (runPub (mkMux [DEFAULT_TOPIC, "food".data]) ["<food>unclosed".data]) (by decide)
  ⟨h.2.2.1, h.2.1 "food".data (by decide)⟩

/-- C8: publish never fails for want of subscribers or because of malformed
markup: the operations are total functions, a publish on a multiplexer with
zero subscribers leaves the delivery log unchanged (the content is silently
dropped), and tag-like noise that is not valid tag grammar is delivered as
literal content of the current topic, reassembling exactly to the input. -/
theorem publish_never_fails :
    (∀ (st : MuxState) (chunk : List Char), st.subs = [] →
        (publish st chunk).received = st.received) ∧
    joined noiseMux DEFAULT_TOPIC = "[] <--insert coin </wow> party hat emoji O:>".data ∧
    (runPub new ["is this thing on?".data]).received = [] := by
  refine ⟨?_, by decide, by decide⟩
  intro st chunk h
  simp only [publish]
  rw [h]
  have hnil : deliver [] (scan [] st.stack (st.buffer ++ chunk)).1 = [] := by
    rw [deliver]
    refine List.filter_eq_nil_iff.mpr ?_
    intro a ha
    simp
  rw [hnil, List.append_nil]

/-- Witness for C8 at the concrete no-subscriber input. -/
theorem publish_never_fails_witness :
    (publish new "is this thing on?".data).received = new.received :=
  publish_never_fails.1 new "is this thing on?".data rfl

/-- C9 counterexample: the nested-conspiracy input is published in a single
call (the chunk list has length one), yet the deeper-conspiracy subscriber
receives two separate onResponse chunks; a split occurring only at the chunk
boundaries of the underlying publish calls would allow at most one chunk per
topic here, so the split is not at a publish-call boundary — it occurs where
the arrow sequence fails to parse as a tag. -/
theorem nested_split_not_at_publish_boundary :
    receivedBy nestedMux "deeper-conspiracy".data =
      ["<--they".data, " are a government plot!!1!-->".data] ∧
    ¬((receivedBy nestedMux "deeper-conspiracy".data).length ≤
        ([nestedInput] : List (List Char)).length) := by
  decide

/-- C9 (amended): publishing the nested-conspiracy input in one call, with
subscribers on conspiracy and deeper-conspiracy and no default subscriber,
delivers to conspiracy exactly the two chunks around the nested span and to
deeper-conspiracy exactly the two chunks split where the arrow sequence fails
to parse as a tag; content inside the inner tag is delivered only to the
inner topic, never also to the outer one (the delivery log interleaves the
topics in exactly this order). -/
theorem nested_routing_amended :
    receivedBy nestedMux "conspiracy".data = ["birds are not ".data, "real".data] ∧
    receivedBy nestedMux "deeper-conspiracy".data =
      ["<--they".data, " are a government plot!!1!-->".data] ∧
    nestedMux.received.map Prod.fst =
      ["conspiracy".data, "deeper-conspiracy".data,
       "deeper-conspiracy".data, "conspiracy".data] := by
  decide

/-- C10: delivered spans are split at structural tag boundaries and are not
coalesced: in the deep-state scenario the default subscriber receives the
lone newline standing between the closing and the next opening tag as its own
separate onResponse chunk, not merged with the earlier default-topic
content. -/
theorem intertag_chunks_not_coalesced :
    receivedBy deepStateMux DEFAULT_TOPIC = ["everything is a-ok\n".data, "\n".data] ∧
    receivedBy deepStateMux "deep-state".data =
      ["birds are not real".data, " they are a government plot".data] := by
  decide

end BotMux
